import Mathlib

/-!
# Verification of the live-captioning core (zoom-clone)

A shallow embedding of the transcript reconciliation and export engine:

* `lib/captions/types.ts` — the data model (`TranscriptEntry`, `CaptionSession`);
* `hooks/useCaptions.ts` — the transcript reconciler (`recognition.onresult`
  `setTranscript` updater);
* `lib/captions/formatters.ts` — the SRT / WebVTT formatters and timecode math;
* `lib/captions/speechRecognition.ts` — the recognizer adapter's text
  post-processing, stop/auto-restart state, and the `CaptionStorage` session
  store (export / import / size accounting).

JavaScript `Date` values are modeled by their millisecond timestamps (`Nat`).
Elapsed times are `Int` (wall-clock differences may be negative).
-/

namespace Captions

/-- `TranscriptEntry` from `lib/captions/types.ts`.  `Date` fields are
millisecond timestamps.  `confidence` is an optional number (its numeric value
is irrelevant to every verified property, so it is modeled as `Int`). -/
structure TranscriptEntry where
  text : String
  timestamp : Nat
  startTime : Nat
  endTime : Nat
  confidence : Option Int
  isFinal : Bool
  speaker : Option String
deriving DecidableEq, Repr

/-- `CaptionSession` from `lib/captions/types.ts`. -/
structure CaptionSession where
  id : String
  name : String
  startTime : Nat
  endTime : Nat
  transcript : List TranscriptEntry
  language : String
deriving DecidableEq, Repr

/-! ## Transcript reconciler (`hooks/useCaptions.ts`, lines 109-119)

The `recognition.onresult` handler feeds each recognition result to
`setTranscript(prev => ...)`.  Both branches of the updater compute
`prev.filter(e => e.isFinal)` and append the new entry; they differ only in
resetting `beginTimeRef` (the utterance clock), which does not affect the
transcript value. -/

/-- One reconciliation step: the `setTranscript` updater of
`useCaptions.ts:109-119` applied to the previous transcript and the new entry. -/
def reconcileTranscript (prev : List TranscriptEntry) (entry : TranscriptEntry) :
    List TranscriptEntry :=
  if !entry.isFinal then
    prev.filter (fun e => e.isFinal) ++ [entry]
  else
    prev.filter (fun e => e.isFinal) ++ [entry]

/-- The transcript obtained by reconciling a whole sequence of recognition
results, starting from the empty transcript (`setTranscript([])` in
`startListening`). -/
def reconcileAll (results : List TranscriptEntry) : List TranscriptEntry :=
  results.foldl reconcileTranscript []

/-! ## Transcript formatters (`lib/captions/formatters.ts`)

The SRT / WebVTT formatters emit one cue per `isFinal` entry, in transcript
order, numbering cues from 1, with timecodes computed as the wall-clock
millisecond difference between each entry's own start / end time and the
session start time. -/

/-- `String.prototype.padStart(n, c)` (used with `'0'`). -/
def jsPadStart (s : String) (n : Nat) (c : Char) : String :=
  String.mk (List.replicate (n - s.length) c) ++ s

/-- JavaScript `Number.prototype.toString` on an integer. -/
def jsIntToString (i : Int) : String :=
  toString i

/-- `formatMillisecondsToTimecode` (`formatters.ts:75-86`).  `Math.floor` on a
possibly negative quotient is `Int.fdiv`; the JS `%` operator is the truncated
remainder `Int.tmod`. -/
def formatMillisecondsToTimecode (ms : Int) (separator : String) : String :=
  let seconds := Int.fdiv ms 1000
  let minutes := Int.fdiv seconds 60
  let hours := Int.fdiv minutes 60
  let displayHours := jsPadStart (jsIntToString hours) 2 '0'
  let displayMinutes := jsPadStart (jsIntToString (Int.tmod minutes 60)) 2 '0'
  let displaySeconds := jsPadStart (jsIntToString (Int.tmod seconds 60)) 2 '0'
  let displayMs := jsPadStart (jsIntToString (Int.tmod ms 1000)) 3 '0'
  displayHours ++ ":" ++ displayMinutes ++ ":" ++ displaySeconds ++ separator ++ displayMs

/-- `formatTimecodeSRT` (`formatters.ts:65-68`): elapsed milliseconds between
`time` and `startTime`, rendered with `','`. -/
def formatTimecodeSRT (time startTime : Nat) : String :=
  formatMillisecondsToTimecode ((time : Int) - (startTime : Int)) ","

/-- `formatTimecodeVTT` (`formatters.ts:70-73`). -/
def formatTimecodeVTT (time startTime : Nat) : String :=
  formatMillisecondsToTimecode ((time : Int) - (startTime : Int)) "."

/-- The zero point for timecodes:
`sessionStartTime || (transcript[0]?.startTime || new Date())`
(`formatters.ts:34` and `formatters.ts:51`).  `Date` objects are always truthy.
The `new Date()` fallback (current time) is reached only when the transcript is
empty, in which case no cue is emitted and the value is irrelevant; it is
modeled as `0`. -/
def sessionZeroTime (transcript : List TranscriptEntry)
    (sessionStartTime : Option Nat) : Nat :=
  match sessionStartTime with
  | some t => t
  | none =>
      match transcript.head? with
      | some e => e.startTime
      | none => 0

/-- One SRT/WebVTT cue: the data written by one iteration of the `forEach`
loops in `formatAsSRT` / `formatAsWebVTT` — the 1-based cue id, the two elapsed
times (entry start/end minus session start, in milliseconds), and the text. -/
structure Cue where
  id : Nat
  startMs : Int
  endMs : Int
  text : String
deriving DecidableEq, Repr

/-- The cue list produced by the formatter loop over the final entries,
numbering from `counter`. -/
def cuesFrom (counter : Nat) (zeroMs : Nat) : List TranscriptEntry → List Cue
  | [] => []
  | e :: rest =>
      { id := counter, startMs := (e.startTime : Int) - (zeroMs : Int),
        endMs := (e.endTime : Int) - (zeroMs : Int), text := e.text } ::
        cuesFrom (counter + 1) zeroMs rest

/-- The cues emitted by `formatAsSRT` / `formatAsWebVTT`: one per `isFinal`
entry of the transcript, in order, with 1-based sequential ids. -/
def formatterCues (transcript : List TranscriptEntry)
    (sessionStartTime : Option Nat) : List Cue :=
  cuesFrom 1 (sessionZeroTime transcript sessionStartTime)
    (transcript.filter (fun e => e.isFinal))

/-- The text block one SRT cue contributes to the output
(`formatAsSRT`'s loop body, `formatters.ts:40-45`). -/
def renderSrtCue (c : Cue) : String :=
  toString c.id ++ "\n" ++
    formatMillisecondsToTimecode c.startMs "," ++ " --> " ++
    formatMillisecondsToTimecode c.endMs "," ++ "\n" ++
    c.text ++ "\n\n"

/-- `formatAsSRT` (`formatters.ts:33-48`). -/
def formatAsSRT (transcript : List TranscriptEntry)
    (sessionStartTime : Option Nat) : String :=
  String.join ((formatterCues transcript sessionStartTime).map renderSrtCue)

/-- The text block one WebVTT cue contributes to the output
(`formatAsWebVTT`'s loop body, `formatters.ts:56-60`; cue id is `index + 1`). -/
def renderVttCue (c : Cue) : String :=
  toString c.id ++ "\n" ++
    formatMillisecondsToTimecode c.startMs "." ++ " --> " ++
    formatMillisecondsToTimecode c.endMs "." ++ "\n" ++
    c.text ++ "\n\n"

/-- `formatAsWebVTT` (`formatters.ts:50-63`): the literal header `WEBVTT`
followed by a blank line, then the cue blocks. -/
def formatAsWebVTT (transcript : List TranscriptEntry)
    (sessionStartTime : Option Nat) : String :=
  "WEBVTT\n\n" ++
    String.join ((formatterCues transcript sessionStartTime).map renderVttCue)

/-! ## Recognizer adapter (`lib/captions/speechRecognition.ts`)

`processTranscript` post-processes every recognized fragment; the service
state records the listening flag, the auto-restart flag and the pending
restart timer manipulated by the `onend` handler and `stop`/`abort`. -/

/-- The ECMAScript whitespace class (`\s`, which is also the set removed by
`String.prototype.trim`): tab through carriage return, space, NBSP, and the
Unicode space separators, line/paragraph separators and BOM. -/
def jsWhitespace (c : Char) : Bool :=
  decide ((9 ≤ c.toNat ∧ c.toNat ≤ 13) ∨ c.toNat = 32 ∨ c.toNat = 160 ∨
    c.toNat = 5760 ∨ (8192 ≤ c.toNat ∧ c.toNat ≤ 8202) ∨ c.toNat = 8232 ∨
    c.toNat = 8233 ∨ c.toNat = 8239 ∨ c.toNat = 8287 ∨ c.toNat = 12288 ∨
    c.toNat = 65279)

/-- The ECMAScript word-character class `\w` = `[A-Za-z0-9_]`, which defines
the word boundaries `\b` of the regex `/\bi\b/g`. -/
def isWordChar (c : Char) : Bool :=
  decide ((48 ≤ c.toNat ∧ c.toNat ≤ 57) ∨ (65 ≤ c.toNat ∧ c.toNat ≤ 90) ∨
    (97 ≤ c.toNat ∧ c.toNat ≤ 122) ∨ c.toNat = 95)

/-- `String.prototype.toUpperCase` on one character (applied to `charAt(0)`),
modeled on the ASCII range. -/
def jsToUpper (c : Char) : Char :=
  if 97 ≤ c.toNat ∧ c.toNat ≤ 122 then Char.ofNat (c.toNat - 32) else c

/-- `String.prototype.trim` (`speechRecognition.ts:154`): strip whitespace
from both ends. -/
def jsTrim (l : List Char) : List Char :=
  ((l.dropWhile jsWhitespace).reverse.dropWhile jsWhitespace).reverse

/-- `text.charAt(0).toUpperCase() + text.slice(1)`
(`speechRecognition.ts:157-159`). -/
def capitalizeFirst : List Char → List Char
  | [] => []
  | c :: cs => jsToUpper c :: cs

/-- Whether the character preceding the current position is a word character
(`none` = start of string, which is a word boundary). -/
def prevIsWordChar : Option Char → Bool
  | none => false
  | some c => isWordChar c

/-- Whether the character after the current position is a word character (end
of string is a word boundary). -/
def headIsWordChar (l : List Char) : Bool :=
  match l.head? with
  | some c => isWordChar c
  | none => false

/-- `text.replace(/\bi\b/g, 'I')` (`speechRecognition.ts:162`): a lowercase
`i` with no word character on either side is replaced by `I`.  The pattern and
replacement are a single character, so the global replace is an exact
positional map. -/
def replaceStandaloneI (prev : Option Char) : List Char → List Char
  | [] => []
  | c :: cs =>
      (if c == 'i' && !prevIsWordChar prev && !headIsWordChar cs then 'I' else c) ::
        replaceStandaloneI (some c) cs

/-- `text.replace(/\s+/g, ' ')` (`speechRecognition.ts:163`): each maximal
whitespace run is replaced by a single space.  `inRun` records whether the
current position is inside a run whose replacement space was already
emitted. -/
def collapseGo (inRun : Bool) : List Char → List Char
  | [] => []
  | c :: cs =>
      if jsWhitespace c then
        if inRun then collapseGo true cs else ' ' :: collapseGo true cs
      else
        c :: collapseGo false cs

/-- The whole `/\s+/g` collapse. -/
def collapseWhitespaceRuns (l : List Char) : List Char :=
  collapseGo false l

/-- `SpeechRecognitionService.processTranscript`
(`speechRecognition.ts:152-166`): trim, capitalize the first character,
normalize standalone `i` to `I`, collapse repeated whitespace — in that
order. -/
def processTranscript (s : String) : String :=
  String.mk
    (collapseWhitespaceRuns (replaceStandaloneI none (capitalizeFirst (jsTrim s.data))))

/-- Whether a list contains a standalone lowercase `i` (an `i` with no word
character on either side), given whether the character just before the list is
a word character. -/
def hasStandaloneLowerI (prevWord : Bool) : List Char → Bool
  | [] => false
  | c :: cs =>
      (c == 'i' && !prevWord && !headIsWordChar cs) ||
        hasStandaloneLowerI (isWordChar c) cs

/-- No two adjacent whitespace characters anywhere in the list. -/
def noAdjacentWhitespace : List Char → Bool
  | a :: b :: t => !(jsWhitespace a && jsWhitespace b) && noAdjacentWhitespace (b :: t)
  | _ => true

/-- The `SpeechRecognitionService` control state: the `isListening` flag, the
`autoRestart` flag, and the pending restart timer (delay in milliseconds). -/
structure RecognitionServiceState where
  isListening : Bool
  autoRestart : Bool
  restartTimer : Option Nat
deriving DecidableEq, Repr

/-- The `recognition.onend` handler (`speechRecognition.ts:66-77`): it first
sets `isListening := false`, then schedules a 1000 ms restart only when
`this.autoRestart && this.isListening` holds. -/
def handleEnd (s : RecognitionServiceState) : RecognitionServiceState :=
  let s1 : RecognitionServiceState := { s with isListening := false }
  if s1.autoRestart && s1.isListening then { s1 with restartTimer := some 1000 } else s1

/-- `SpeechRecognitionService.stop` (`speechRecognition.ts:186-193`): disables
auto-restart and clears any pending restart timer before issuing the
underlying stop (`abort`, lines 195-202, is identical on this state). -/
def serviceStop (s : RecognitionServiceState) : RecognitionServiceState :=
  { s with autoRestart := false, restartTimer := none }

/-! ## Session store (`CaptionStorage`, `lib/captions/storage.ts`)

The store is modeled over parsed JSON values.  `JSON.parse ∘ JSON.stringify`
is the identity on such values, so the string serialization boundary of
`localStorage` is crossed at the value level; the stored aggregate list is
always an array in every state the store itself writes. -/

/-- A parsed JSON value.  Numbers are modeled as integers (no verified
property inspects a fractional value). -/
inductive Json where
  | null
  | bool (b : Bool)
  | num (n : Int)
  | str (s : String)
  | arr (elems : List Json)
  | obj (fields : List (String × Json))
deriving Repr

/-- Lowercase hexadecimal digit. -/
def hexDigit (n : Nat) : Char :=
  if n < 10 then Char.ofNat (48 + n) else Char.ofNat (87 + n)

/-- `JSON.stringify` escaping of one string character. -/
def escapeChar (c : Char) : String :=
  if c = '"' then "\\\""
  else if c = '\\' then "\\\\"
  else if c = '\n' then "\\n"
  else if c = '\r' then "\\r"
  else if c = '\t' then "\\t"
  else if c = '\x08' then "\\b"
  else if c = '\x0c' then "\\f"
  else if c.toNat < 32 then
    "\\u00" ++ String.mk [hexDigit (c.toNat / 16), hexDigit (c.toNat % 16)]
  else String.mk [c]

def jsonEscape (s : String) : String :=
  String.join (s.data.map escapeChar)

/-- Compact `JSON.stringify` (as used for the stored strings whose lengths
`getStorageSize` adds up). -/
def jsonStringify : Json → String
  | .null => "null"
  | .bool b => cond b "true" "false"
  | .num n => toString n
  | .str s => "\"" ++ jsonEscape s ++ "\""
  | .arr xs => "[" ++ String.intercalate "," (xs.attach.map (fun x => jsonStringify x.1)) ++ "]"
  | .obj fs => "\x7b" ++ String.intercalate ","
      (fs.attach.map (fun p => "\"" ++ jsonEscape p.1.1 ++ "\":" ++ jsonStringify p.1.2)) ++ "\x7d"
termination_by j => sizeOf j
decreasing_by
  · have h := List.sizeOf_lt_of_mem x.2
    simp only [Json.arr.sizeOf_spec]
    omega
  · have h := List.sizeOf_lt_of_mem p.2
    have h2 : sizeOf p.1.2 < sizeOf p.1 := by
      obtain ⟨⟨a, b⟩, hp⟩ := p
      simp
    simp only [Json.obj.sizeOf_spec]
    omega

/-- Decimal digits of a natural number, most significant first. -/
def natToDigits (n : Nat) : List Char :=
  if n < 10 then [Char.ofNat (48 + n)]
  else natToDigits (n / 10) ++ [Char.ofNat (48 + n % 10)]
termination_by n
decreasing_by exact Nat.div_lt_self (by omega) (by omega)

/-- `Date.prototype.toJSON` (used by `JSON.stringify` on `Date` values): an
ISO-8601 timestamp string from which `new Date` recovers the exact millisecond
value.  The codec is modeled as the canonical decimal string of the
millisecond timestamp, which has the same recoverability property. -/
def dateEncode (ms : Nat) : String :=
  String.mk (natToDigits ms)

/-- The numeric value of a list of decimal digits. -/
def digitsVal (l : List Char) : Nat :=
  l.foldl (fun acc c => acc * 10 + (c.toNat - 48)) 0

/-- `new Date(string)` parsing of a stored timestamp; `none` models an Invalid
Date. -/
def dateDecode (s : String) : Option Nat :=
  if s.data.isEmpty then none
  else if s.data.all (fun c => decide (48 ≤ c.toNat ∧ c.toNat ≤ 57)) then
    some (digitsVal s.data)
  else none

/-- JS property access `v[key]` on a parsed value; `none` is `undefined`.
(Objects built by this model never carry duplicate keys.) -/
def getField : Json → String → Option Json
  | .obj fields, key => fields.lookup key
  | _, _ => none

/-- JS property assignment on an object's field list: overwrite in place if
the key exists, append otherwise. -/
def setField (fields : List (String × Json)) (key : String) (v : Json) :
    List (String × Json) :=
  if fields.any (fun p => p.1 == key) then
    fields.map (fun p => if p.1 == key then (key, v) else p)
  else
    fields ++ [(key, v)]

/-- The JS `===` comparison as used in `s.id === session.id`:
`undefined === undefined` is true, primitives compare by value, and two
object/array values materialized by distinct parses are distinct references,
hence `false`. -/
def jsStrictEq : Option Json → Option Json → Bool
  | none, none => true
  | some .null, some .null => true
  | some (.bool a), some (.bool b) => a == b
  | some (.num a), some (.num b) => a == b
  | some (.str a), some (.str b) => a == b
  | _, _ => false

/-- JS string coercion of a value (template-literal interpolation).  Arrays
join their elements with `,` and objects render as `[object Object]`; the
rendering of `null`/`undefined` elements inside arrays is approximated (no
verified property exercises it). -/
def jsValueToString : Json → String
  | .null => "null"
  | .bool b => cond b "true" "false"
  | .num n => toString n
  | .str s => s
  | .arr xs => String.intercalate "," (xs.attach.map (fun x => jsValueToString x.1))
  | .obj _ => "[object Object]"
termination_by j => sizeOf j
decreasing_by
  have h := List.sizeOf_lt_of_mem x.2
  simp only [Json.arr.sizeOf_spec]
  omega

/-- Template-literal interpolation of a possibly-`undefined` value, as in
`` `${this.SESSION_PREFIX}${session.id}` ``. -/
def jsToDisplayString : Option Json → String
  | none => "undefined"
  | some v => jsValueToString v

/-- The net effect on one date-valued property of revival (`new Date(x)`)
followed by re-serialization (`Date.toJSON`): a parseable timestamp string is
re-encoded canonically, a number is used as the millisecond value, `null` and
booleans coerce to 0/1, and `undefined`, unparseable strings, objects and
arrays give an Invalid Date, which serializes as `null`.  (Pre-epoch
negative-millisecond dates are not exercised by any verified property and are
modeled as Invalid.) -/
def reviveDateField : Option Json → Json
  | some (.str s) =>
      match dateDecode s with
      | some ms => .str (dateEncode ms)
      | none => .null
  | some (.num n) => if 0 ≤ n then .str (dateEncode n.toNat) else .null
  | some .null => .str (dateEncode 0)
  | some (.bool b) => .str (dateEncode (cond b 1 0))
  | _ => .null

/-- `Array.prototype.map` over parsed values with a callback that can throw:
the first exception (`none`) aborts the whole map. -/
def mapJson (f : Json → Option Json) : List Json → Option (List Json)
  | [] => some []
  | x :: xs =>
      match f x with
      | some y =>
          match mapJson f xs with
          | some ys => some (y :: ys)
          | none => none
      | none => none

/-- Revival of one transcript entry (`getAllSessions`, storage.ts:314-319):
`{...entry, timestamp: new Date(...), startTime: ..., endTime: ...}`,
represented by its JSON re-serialization.  Property access on `null` throws
(`none`); spreading a non-object yields an empty object, so only the three
date fields remain. -/
def reviveEntry : Json → Option Json
  | .null => none
  | .obj fields =>
      some (.obj (setField (setField (setField fields
        "timestamp" (reviveDateField (fields.lookup "timestamp")))
        "startTime" (reviveDateField (fields.lookup "startTime")))
        "endTime" (reviveDateField (fields.lookup "endTime"))))
  | _ =>
      some (.obj [("timestamp", reviveDateField none),
                  ("startTime", reviveDateField none),
                  ("endTime", reviveDateField none)])

/-- Revival of one session (`getAllSessions`, storage.ts:310-320), represented
by its JSON re-serialization.  `none` models the exceptions revival can throw
(`session.transcript.map` on a non-array, property access on `null`), which
the surrounding `try`/`catch` turns into an empty result. -/
def reviveSession : Json → Option Json
  | .obj fields =>
      match fields.lookup "transcript" with
      | some (.arr entries) =>
          match mapJson reviveEntry entries with
          | some revived =>
              some (.obj (setField (setField (setField fields
                "startTime" (reviveDateField (fields.lookup "startTime")))
                "endTime" (reviveDateField (fields.lookup "endTime")))
                "transcript" (.arr revived)))
          | none => none
      | _ => none
  | _ => none

/-- The `localStorage` state as `CaptionStorage` uses it: the parsed aggregate
list under `meeting_captions` plus the per-session strings under
`caption_session_<id>`. -/
structure StorageState where
  mainList : List Json
  individual : List (String × String)
deriving Repr

/-- `CaptionStorage.getAllSessions` (storage.ts:301-325): parse the aggregate
list and revive every session; any exception is caught and yields `[]`. -/
def getAllSessions (st : StorageState) : List Json :=
  match mapJson reviveSession st.mainList with
  | some sessions => sessions
  | none => []

/-- The `findIndex` / assign-or-push upsert of `saveSession`
(storage.ts:337-343). -/
def jsUpsert (pred : Json → Bool) (v : Json) (l : List Json) : List Json :=
  match l.findIdx? pred with
  | some i => l.set i v
  | none => l ++ [v]

/-- `localStorage.setItem` on the per-session string entries. -/
def setIndividual (items : List (String × String)) (key v : String) :
    List (String × String) :=
  if items.any (fun p => p.1 == key) then
    items.map (fun p => if p.1 == key then (key, v) else p)
  else
    items ++ [(key, v)]

/-- `CaptionStorage.saveSession` (storage.ts:332-355): upsert into the revived
session list keyed on `s.id === session.id`, store the re-serialized list
under the aggregate key, and store the session's own serialization under
`caption_session_<id>`. -/
def saveSession (session : Json) (st : StorageState) : StorageState :=
  let sessions := getAllSessions st
  let sessions' := jsUpsert
    (fun s => jsStrictEq (getField s "id") (getField session "id")) session sessions
  { mainList := sessions',
    individual := setIndividual st.individual
      ("caption_session_" ++ jsToDisplayString (getField session "id"))
      (jsonStringify session) }

/-- `CaptionStorage.exportSessions` (storage.ts:391-394):
`JSON.stringify(this.getAllSessions(), null, 2)`, as the parsed value of the
exported string (the pretty-print indent affects only whitespace). -/
def exportSessions (st : StorageState) : Json :=
  .arr (getAllSessions st)

/-- `CaptionStorage.importSessions` (storage.ts:396-417), applied to the
result of `JSON.parse` on the input (`none` = parse error).  A non-array
payload throws `'Invalid sessions format'`; any exception is caught and
reported as `false` with nothing saved.  An array payload is saved
element-by-element via `saveSession` and reported as `true`. -/
def importSessions (payload : Option Json) (st : StorageState) :
    Bool × StorageState :=
  match payload with
  | some (.arr sessions) => (true, sessions.foldl (fun acc s => saveSession s acc) st)
  | some _ => (false, st)
  | none => (false, st)

/-- `CaptionStorage.getStorageSize` (storage.ts:420-435): the length of the
serialized aggregate list plus the lengths of whichever per-session strings
exist. -/
def getStorageSize (st : StorageState) : Nat :=
  let sessions := getAllSessions st
  (jsonStringify (.arr sessions)).length +
    (sessions.map (fun s =>
      match st.individual.lookup
          ("caption_session_" ++ jsToDisplayString (getField s "id")) with
      | some d => d.length
      | none => 0)).sum

/-- `CaptionStorage.isStorageNearLimit` (storage.ts:438-442):
`getStorageSize() > MAX_SIZE * 0.9` with `MAX_SIZE = 5 * 1024 * 1024`.
`5242880 * 0.9` is exactly `4718592` in real arithmetic, and the IEEE-754
double product also rounds to exactly `4718592.0` (the error of `0.9`'s
representation contributes less than half an ulp), so the comparison is
exactly `size > (9 * MAX_SIZE) / 10`. -/
def isStorageNearLimit (st : StorageState) : Bool :=
  decide (10 * getStorageSize st > 9 * (5 * 1024 * 1024))

/-- `JSON.stringify` of a `TranscriptEntry`, as a parsed value: the fields in
construction order (`useCaptions.ts:99-107`), dates via `Date.toJSON`, and
`undefined` optional fields omitted. -/
def entryToJson (e : TranscriptEntry) : Json :=
  .obj ([("text", .str e.text),
         ("timestamp", .str (dateEncode e.timestamp)),
         ("startTime", .str (dateEncode e.startTime)),
         ("endTime", .str (dateEncode e.endTime))] ++
        (match e.confidence with
         | some c => [("confidence", .num c)]
         | none => []) ++
        [("isFinal", .bool e.isFinal)] ++
        (match e.speaker with
         | some sp => [("speaker", .str sp)]
         | none => []))

/-- `JSON.stringify` of a `CaptionSession`, as a parsed value: the fields in
construction order (`useCaptions.ts:156-163`). -/
def sessionToJson (s : CaptionSession) : Json :=
  .obj [("id", .str s.id), ("name", .str s.name),
        ("startTime", .str (dateEncode s.startTime)),
        ("endTime", .str (dateEncode s.endTime)),
        ("transcript", .arr (s.transcript.map entryToJson)),
        ("language", .str s.language)]

/-- Whether a value is a serialized `Date`. -/
def isDateValue : Option Json → Bool
  | some (.str s) => (dateDecode s).isSome
  | _ => false

/-- A transcript-entry-shaped record in the sense of the spec's data model
(§3 `TranscriptEntry`). -/
def isEntryShaped : Json → Bool
  | .obj fields =>
      (match fields.lookup "text" with | some (.str _) => true | _ => false) &&
      isDateValue (fields.lookup "timestamp") &&
      isDateValue (fields.lookup "startTime") &&
      isDateValue (fields.lookup "endTime") &&
      (match fields.lookup "isFinal" with | some (.bool _) => true | _ => false)
  | _ => false

/-- A session-shaped record in the sense of the spec's data model
(§3 `CaptionSession`): an object with string `id`, `name` and `language`,
date-valued `startTime` and `endTime`, and a `transcript` array of
entry-shaped records. -/
def isSessionShaped : Json → Bool
  | .obj fields =>
      (match fields.lookup "id" with | some (.str _) => true | _ => false) &&
      (match fields.lookup "name" with | some (.str _) => true | _ => false) &&
      isDateValue (fields.lookup "startTime") &&
      isDateValue (fields.lookup "endTime") &&
      (match fields.lookup "transcript" with
       | some (.arr es) => es.all isEntryShaped
       | _ => false) &&
      (match fields.lookup "language" with | some (.str _) => true | _ => false)
  | _ => false

theorem reconcileTranscript_eq (prev : List TranscriptEntry) (entry : TranscriptEntry) :
    reconcileTranscript prev entry = prev.filter (fun e => e.isFinal) ++ [entry] := by
  unfold reconcileTranscript
  cases entry.isFinal <;> simp

/-- The final entries of the reconciled transcript are exactly the final
results received, in order (generalized over the starting transcript). -/
theorem filter_reconcileAll_aux (results : List TranscriptEntry)
    (init : List TranscriptEntry) :
    (results.foldl reconcileTranscript init).filter (fun e => e.isFinal) =
      init.filter (fun e => e.isFinal) ++ results.filter (fun e => e.isFinal) := by
  induction results generalizing init with
  | nil => simp
  | cons r rs ih =>
      simp only [List.foldl_cons, ih, reconcileTranscript_eq, List.filter_append,
        List.filter_filter, List.filter_cons]
      cases h : r.isFinal <;> simp [h, Bool.and_self]

theorem filter_reconcileAll (results : List TranscriptEntry) :
    (reconcileAll results).filter (fun e => e.isFinal) =
      results.filter (fun e => e.isFinal) := by
  simpa using filter_reconcileAll_aux results []

theorem reconcileAll_concat (results : List TranscriptEntry) (entry : TranscriptEntry) :
    reconcileAll (results ++ [entry]) = reconcileTranscript (reconcileAll results) entry :=
  List.foldl_concat ..

/-- Every entry of the reconciled transcript other than the last one is final. -/
theorem reconcileAll_dropLast_final (results : List TranscriptEntry) :
    ∀ e ∈ (reconcileAll results).dropLast, e.isFinal = true := by
  rcases List.eq_nil_or_concat results with h | ⟨rs, r, h⟩
  · subst h; simp [reconcileAll]
  · subst h
    rw [List.concat_eq_append, reconcileAll_concat, reconcileTranscript_eq,
      List.dropLast_concat]
    intro e he
    exact (List.mem_filter.mp he).2

/-- At most one non-final entry survives any reconciliation step. -/
theorem reconcileAll_countP_interim_le_one (results : List TranscriptEntry) :
    (reconcileAll results).countP (fun e => !e.isFinal) ≤ 1 := by
  rcases List.eq_nil_or_concat results with h | ⟨rs, r, h⟩
  · subst h; simp [reconcileAll]
  · subst h
    rw [List.concat_eq_append, reconcileAll_concat, reconcileTranscript_eq,
      List.countP_append]
    have h0 : ((reconcileAll rs).filter (fun e => e.isFinal)).countP
        (fun e => !e.isFinal) = 0 := by
      rw [List.countP_eq_zero]
      intro a ha
      simp [(List.mem_filter.mp ha).2]
    rw [h0]
    cases hr : r.isFinal <;> simp [List.countP_cons, hr]

/-- C1: for every sequence of recognition results fed to the reconciler, after
each reconciliation step the transcript contains at most one non-final entry,
every entry before the last is final (so a non-final entry, if present, is the
trailing one), and the sequence of previously appended final entries is
preserved by the next step (append-only: the step only appends the new entry,
dropping the trailing interim). -/
theorem useCaptions_transcript_invariant :
    ∀ results : List TranscriptEntry,
      (∀ e ∈ (reconcileAll results).dropLast, e.isFinal = true) ∧
      (reconcileAll results).countP (fun e => !e.isFinal) ≤ 1 ∧
      (∀ entry : TranscriptEntry,
        (reconcileAll (results ++ [entry])).filter (fun e => e.isFinal) =
          (reconcileAll results).filter (fun e => e.isFinal) ++
            (if entry.isFinal then [entry] else [])) := by
  intro results
  refine ⟨reconcileAll_dropLast_final results,
    reconcileAll_countP_interim_le_one results, fun entry => ?_⟩
  rw [reconcileAll_concat, reconcileTranscript_eq, List.filter_append,
    List.filter_filter]
  cases h : entry.isFinal <;> simp [h, Bool.and_self]

/-- C2 (counterexample): after reconciling a single final result the transcript
contains zero non-final entries, not exactly one. -/
theorem reconciled_interim_count_not_always_one :
    ¬ ((reconcileAll
        [{ text := "hello", timestamp := 0, startTime := 0, endTime := 0,
           confidence := none, isFinal := true, speaker := some "User" }]).countP
        (fun e => !e.isFinal) = 1) := by
  decide

/-- C2 (amended): for all sequences of recognition results, the reconciled
transcript contains at most one non-final entry, any non-final entry is the
trailing one, and the count of final entries equals the number of results
received with `isFinal = true`. -/
theorem reconciled_transcript_counts :
    ∀ results : List TranscriptEntry,
      (reconcileAll results).countP (fun e => !e.isFinal) ≤ 1 ∧
      (∀ e ∈ (reconcileAll results).dropLast, e.isFinal = true) ∧
      (reconcileAll results).countP (fun e => e.isFinal) =
        results.countP (fun e => e.isFinal) := by
  intro results
  refine ⟨reconcileAll_countP_interim_le_one results,
    reconcileAll_dropLast_final results, ?_⟩
  rw [List.countP_eq_length_filter, List.countP_eq_length_filter,
    filter_reconcileAll]

/-- C3: reconciling `[interim "hell"], [final "hello"]` from the empty
transcript yields exactly one entry, final, with text `"hello"` (the interim is
replaced, not duplicated). -/
theorem interim_replaced_by_final :
    reconcileAll
        [{ text := "hell", timestamp := 0, startTime := 0, endTime := 0,
           confidence := none, isFinal := false, speaker := some "User" },
         { text := "hello", timestamp := 1, startTime := 0, endTime := 1,
           confidence := none, isFinal := true, speaker := some "User" }] =
      [{ text := "hello", timestamp := 1, startTime := 0, endTime := 1,
         confidence := none, isFinal := true, speaker := some "User" }] := by
  decide

theorem cuesFrom_map_text (counter zeroMs : Nat) (l : List TranscriptEntry) :
    (cuesFrom counter zeroMs l).map (fun c => c.text) = l.map (fun e => e.text) := by
  induction l generalizing counter with
  | nil => rfl
  | cons e rest ih => simp [cuesFrom, ih]

theorem cuesFrom_length (counter zeroMs : Nat) (l : List TranscriptEntry) :
    (cuesFrom counter zeroMs l).length = l.length := by
  induction l generalizing counter with
  | nil => rfl
  | cons e rest ih => simp [cuesFrom, ih]

theorem cuesFrom_map_id (counter zeroMs : Nat) (l : List TranscriptEntry) :
    (cuesFrom counter zeroMs l).map (fun c => c.id) = List.range' counter l.length := by
  induction l generalizing counter with
  | nil => rfl
  | cons e rest ih => simp [cuesFrom, ih, List.range'_succ]

theorem cuesFrom_start_le_end (counter zeroMs : Nat) (l : List TranscriptEntry)
    (h : ∀ e ∈ l, e.startTime ≤ e.endTime) :
    ∀ c ∈ cuesFrom counter zeroMs l, c.startMs ≤ c.endMs := by
  induction l generalizing counter with
  | nil => simp [cuesFrom]
  | cons e rest ih =>
      intro c hc
      rcases List.mem_cons.mp hc with hc | hc
      · subst hc
        have hse := h e (List.mem_cons_self ..)
        show (e.startTime : Int) - (zeroMs : Int) ≤ (e.endTime : Int) - (zeroMs : Int)
        omega
      · exact ih (counter + 1) (fun x hx => h x (List.mem_cons_of_mem _ hx)) c hc

/-- C6 (counterexample): a final entry whose recorded end time precedes its
start time yields a cue whose end timecode is strictly before its start
timecode — `format(transcript, 'srt')` does not guarantee end ≥ start for
every transcript. -/
theorem srt_end_timecode_can_precede_start :
    ∃ c ∈ formatterCues
        [{ text := "x", timestamp := 0, startTime := 2000, endTime := 1000,
           confidence := none, isFinal := true, speaker := none }] (some 0),
      c.endMs < c.startMs := by
  refine ⟨{ id := 1, startMs := 2000, endMs := 1000, text := "x" }, ?_, ?_⟩ <;> decide

/-- C6 (amended): for every transcript, the SRT formatter emits one cue per
`isFinal` entry, in transcript order, with 1-based sequential numeric cue ids,
so the cue count equals the number of final entries — unconditionally; and
provided every final entry's recorded end time is at least its start time,
each cue's end timecode is ≥ its start timecode. -/
theorem srt_cue_structure (transcript : List TranscriptEntry)
    (sessionStartTime : Option Nat) :
    (formatterCues transcript sessionStartTime).map (fun c => c.text) =
        (transcript.filter (fun e => e.isFinal)).map (fun e => e.text) ∧
    (formatterCues transcript sessionStartTime).length =
        (transcript.filter (fun e => e.isFinal)).length ∧
    (formatterCues transcript sessionStartTime).map (fun c => c.id) =
        List.range' 1 (formatterCues transcript sessionStartTime).length ∧
    ((∀ e ∈ transcript, e.isFinal = true → e.startTime ≤ e.endTime) →
      ∀ c ∈ formatterCues transcript sessionStartTime, c.startMs ≤ c.endMs) := by
  simp only [formatterCues]
  refine ⟨cuesFrom_map_text .., cuesFrom_length .., ?_, ?_⟩
  · rw [cuesFrom_length]
    exact cuesFrom_map_id ..
  · intro h
    apply cuesFrom_start_le_end
    intro e he
    exact h e (List.mem_filter.mp he).1 (List.mem_filter.mp he).2

/-- C6 (witness): the amended theorem applied to a concrete transcript with one
interim and two final entries. -/
theorem srt_cue_structure_witness :
    (formatterCues
        [{ text := "he", timestamp := 5, startTime := 0, endTime := 5,
           confidence := none, isFinal := false, speaker := some "User" },
         { text := "hello", timestamp := 9, startTime := 0, endTime := 9,
           confidence := none, isFinal := true, speaker := some "User" },
         { text := "world", timestamp := 20, startTime := 10, endTime := 20,
           confidence := none, isFinal := true, speaker := some "User" }]
        (some 0)).map (fun c => c.text) =
      ["hello", "world"] ∧
    (∀ c ∈ formatterCues
        [{ text := "he", timestamp := 5, startTime := 0, endTime := 5,
           confidence := none, isFinal := false, speaker := some "User" },
         { text := "hello", timestamp := 9, startTime := 0, endTime := 9,
           confidence := none, isFinal := true, speaker := some "User" },
         { text := "world", timestamp := 20, startTime := 10, endTime := 20,
           confidence := none, isFinal := true, speaker := some "User" }]
        (some 0), c.startMs ≤ c.endMs) := by
  have h := srt_cue_structure
    [{ text := "he", timestamp := 5, startTime := 0, endTime := 5,
       confidence := none, isFinal := false, speaker := some "User" },
     { text := "hello", timestamp := 9, startTime := 0, endTime := 9,
       confidence := none, isFinal := true, speaker := some "User" },
     { text := "world", timestamp := 20, startTime := 10, endTime := 20,
       confidence := none, isFinal := true, speaker := some "User" }]
    (some 0)
  exact ⟨by rw [h.1]; decide, h.2.2.2 (by decide)⟩

/-- C7: an elapsed time of 3723456 ms (1 h 2 min 3.456 s) renders as
`01:02:03,456` in SRT and `01:02:03.456` in WebVTT, and every WebVTT export is
the literal line `WEBVTT` followed by a blank line, followed by the cue
blocks. -/
theorem timecode_rendering :
    formatMillisecondsToTimecode 3723456 "," = "01:02:03,456" ∧
    formatMillisecondsToTimecode 3723456 "." = "01:02:03.456" ∧
    ∀ (transcript : List TranscriptEntry) (sessionStartTime : Option Nat),
      ∃ rest : String,
        formatAsWebVTT transcript sessionStartTime = "WEBVTT\n\n" ++ rest := by
  refine ⟨?_, ?_, fun transcript sessionStartTime => ⟨_, rfl⟩⟩ <;> decide

/-- C8: the `onend` handler can never schedule a restart.  It sets
`isListening := false` and only then tests `autoRestart && isListening`, so
the guard is false in every state and `onend` only clears the listening flag —
the 1000 ms auto-restart documented in the code's own comment is dead code. -/
theorem onend_never_schedules_restart (s : RecognitionServiceState) :
    handleEnd s = { s with isListening := false } := by
  simp [handleEnd]

theorem char_toNat_ofNat (n : Nat) (h : n < 55296) : (Char.ofNat n).toNat = n := by
  simp [Char.ofNat, Nat.isValidChar, h, Char.ofNatAux, Char.toNat, UInt32.toNat,
    UInt32.ofNatCore]

theorem jsToUpper_toNat (c : Char) :
    (jsToUpper c).toNat =
      if 97 ≤ c.toNat ∧ c.toNat ≤ 122 then c.toNat - 32 else c.toNat := by
  unfold jsToUpper
  by_cases h : 97 ≤ c.toNat ∧ c.toNat ≤ 122
  · simp only [if_pos h]
    exact char_toNat_ofNat _ (by omega)
  · simp only [if_neg h]

theorem jsWhitespace_jsToUpper (c : Char) :
    jsWhitespace (jsToUpper c) = jsWhitespace c := by
  have h := jsToUpper_toNat c
  simp only [jsWhitespace, h, decide_eq_decide]
  split <;> omega

theorem jsToUpper_ne_lower_i (c : Char) : jsToUpper c ≠ 'i' := by
  intro h
  have h2 := congrArg Char.toNat h
  rw [jsToUpper_toNat] at h2
  have h3 : ('i' : Char).toNat = 105 := rfl
  rw [h3] at h2
  split at h2 <;> omega

theorem not_isWordChar_of_jsWhitespace (c : Char) (h : jsWhitespace c = true) :
    isWordChar c = false := by
  simp only [jsWhitespace, decide_eq_true_eq] at h
  simp only [isWordChar, decide_eq_false_iff_not]
  omega

theorem head_dropWhile_not_ws (p : Char → Bool) (l : List Char) :
    ∀ c, (l.dropWhile p).head? = some c → p c = false := by
  induction l with
  | nil => simp
  | cons a as ih =>
      intro c hc
      by_cases ha : p a = true
      · rw [List.dropWhile_cons_of_pos ha] at hc
        exact ih c hc
      · rw [List.dropWhile_cons_of_neg ha] at hc
        simp only [List.head?_cons, Option.some.injEq] at hc
        subst hc
        exact Bool.eq_false_iff.mpr ha

theorem getLast_cons_ne_nil {a : Char} {l : List Char} (h : l ≠ []) :
    (a :: l).getLast? = l.getLast? := by
  cases l with
  | nil => exact absurd rfl h
  | cons b bs => simp [List.getLast?_cons_cons]

theorem getLast_dropWhile (p : Char → Bool) (l : List Char)
    (h : l.dropWhile p ≠ []) : (l.dropWhile p).getLast? = l.getLast? := by
  induction l with
  | nil => simp at h
  | cons a as ih =>
      by_cases ha : p a = true
      · rw [List.dropWhile_cons_of_pos ha] at h ⊢
        rw [ih h]
        have has : as ≠ [] := by
          intro hnil
          rw [hnil] at h
          simp at h
        rw [getLast_cons_ne_nil has]
      · rw [List.dropWhile_cons_of_neg ha]

/-- The head of the trimmed string is not whitespace. -/
theorem jsTrim_head_not_ws (l : List Char) :
    ∀ c, (jsTrim l).head? = some c → jsWhitespace c = false := by
  intro c hc
  unfold jsTrim at hc
  rw [List.head?_reverse] at hc
  have hne : (l.dropWhile jsWhitespace).reverse.dropWhile jsWhitespace ≠ [] := by
    intro hnil
    rw [hnil] at hc
    simp at hc
  rw [getLast_dropWhile _ _ hne, List.getLast?_reverse] at hc
  exact head_dropWhile_not_ws _ _ c hc

/-- The last character of the trimmed string is not whitespace. -/
theorem jsTrim_getLast_not_ws (l : List Char) :
    ∀ c, (jsTrim l).getLast? = some c → jsWhitespace c = false := by
  intro c hc
  unfold jsTrim at hc
  rw [List.getLast?_reverse] at hc
  exact head_dropWhile_not_ws _ _ c hc

theorem mem_of_getLast?_eq {l : List Char} {a : Char} (h : l.getLast? = some a) :
    a ∈ l := by
  induction l with
  | nil => simp at h
  | cons x xs ih =>
      by_cases hxs : xs = []
      · subst hxs
        simp only [List.getLast?_singleton, Option.some.injEq] at h
        simp [h]
      · rw [getLast_cons_ne_nil hxs] at h
        exact List.mem_cons_of_mem _ (ih h)

theorem headIsWordChar_replaceStandaloneI (p : Option Char) (l : List Char) :
    headIsWordChar (replaceStandaloneI p l) = headIsWordChar l := by
  cases l with
  | nil => rfl
  | cons c cs =>
      simp only [replaceStandaloneI, headIsWordChar, List.head?_cons]
      split
      · next h =>
          simp only [Bool.and_eq_true, beq_iff_eq] at h
          rw [h.1.1]
          decide
      · rfl

/-- After the `/\bi\b/g` replacement no standalone lowercase `i` remains. -/
theorem hasStandaloneLowerI_replaceStandaloneI (l : List Char) :
    ∀ p, hasStandaloneLowerI (prevIsWordChar p) (replaceStandaloneI p l) = false := by
  induction l with
  | nil => intro p; rfl
  | cons c cs ih =>
      intro p
      simp only [replaceStandaloneI, hasStandaloneLowerI]
      rw [headIsWordChar_replaceStandaloneI]
      have hword :
          isWordChar
              (if c == 'i' && !prevIsWordChar p && !headIsWordChar cs then 'I' else c) =
            isWordChar c := by
        split
        · next h =>
            simp only [Bool.and_eq_true, beq_iff_eq] at h
            rw [h.1.1]
            decide
        · rfl
      rw [hword]
      have htail := ih (some c)
      rw [show prevIsWordChar (some c) = isWordChar c from rfl] at htail
      rw [htail]
      simp only [Bool.or_false]
      split
      · next h => simp
      · next h => exact Bool.eq_false_iff.mpr h

theorem head_replaceStandaloneI_of_ne_i (p : Option Char) (l : List Char) (c : Char)
    (hl : l.head? = some c) (hne : c ≠ 'i') :
    (replaceStandaloneI p l).head? = some c := by
  cases l with
  | nil => simp at hl
  | cons a as =>
      simp only [List.head?_cons, Option.some.injEq] at hl
      subst hl
      simp only [replaceStandaloneI, List.head?_cons, Option.some.injEq]
      split
      · next h =>
          simp only [Bool.and_eq_true, beq_iff_eq] at h
          exact absurd h.1.1 hne
      · rfl

theorem getLast_replaceStandaloneI (l : List Char) :
    ∀ p c, (replaceStandaloneI p l).getLast? = some c →
      l.getLast? = some c ∨ c = 'I' := by
  induction l with
  | nil => intro p c hc; simp [replaceStandaloneI] at hc
  | cons a as ih =>
      intro p c hc
      by_cases has : as = []
      · subst has
        simp only [replaceStandaloneI, List.getLast?_singleton, Option.some.injEq] at hc
        split at hc
        · right; exact hc.symm
        · left; simp [hc]
      · have hrep : replaceStandaloneI (some a) as ≠ [] := by
          cases as with
          | nil => exact absurd rfl has
          | cons x xs => simp [replaceStandaloneI]
        simp only [replaceStandaloneI] at hc
        rw [getLast_cons_ne_nil hrep] at hc
        rcases ih (some a) c hc with h | h
        · left; rw [getLast_cons_ne_nil has]; exact h
        · right; exact h

theorem capitalizeFirst_getLast_not_ws (l : List Char)
    (h : ∀ c, l.getLast? = some c → jsWhitespace c = false) :
    ∀ c, (capitalizeFirst l).getLast? = some c → jsWhitespace c = false := by
  cases l with
  | nil => intro c hc; simp [capitalizeFirst] at hc
  | cons a as =>
      intro c hc
      simp only [capitalizeFirst] at hc
      by_cases has : as = []
      · subst has
        simp only [List.getLast?_singleton, Option.some.injEq] at hc
        rw [← hc, jsWhitespace_jsToUpper]
        exact h a (by simp)
      · rw [getLast_cons_ne_nil has] at hc
        apply h
        rw [getLast_cons_ne_nil has]
        exact hc

theorem collapseGo_false_ne_nil (c : Char) (cs : List Char) :
    collapseGo false (c :: cs) ≠ [] := by
  simp only [collapseGo]
  split <;> simp

theorem collapseGo_nonws_cons (b : Bool) (c : Char) (cs : List Char)
    (hw : jsWhitespace c = false) :
    collapseGo b (c :: cs) = c :: collapseGo false cs := by
  cases b <;> simp [collapseGo, hw]

theorem collapseGo_true_ws_cons (c : Char) (cs : List Char)
    (hw : jsWhitespace c = true) :
    collapseGo true (c :: cs) = collapseGo true cs := by
  simp [collapseGo, hw]

theorem collapseGo_false_ws_cons (c : Char) (cs : List Char)
    (hw : jsWhitespace c = true) :
    collapseGo false (c :: cs) = ' ' :: collapseGo true cs := by
  simp [collapseGo, hw]

theorem collapseGo_true_head_not_ws (l : List Char) :
    ∀ d, (collapseGo true l).head? = some d → jsWhitespace d = false := by
  induction l with
  | nil => simp [collapseGo]
  | cons c cs ih =>
      intro d hd
      cases hw : jsWhitespace c
      · rw [collapseGo_nonws_cons true c cs hw] at hd
        simp only [List.head?_cons, Option.some.injEq] at hd
        rw [← hd]
        exact hw
      · rw [collapseGo_true_ws_cons c cs hw] at hd
        exact ih d hd

theorem collapseGo_true_eq_nil (l : List Char) (h : collapseGo true l = []) :
    ∀ c ∈ l, jsWhitespace c = true := by
  induction l with
  | nil => simp
  | cons c cs ih =>
      cases hw : jsWhitespace c
      · rw [collapseGo_nonws_cons true c cs hw] at h
        simp at h
      · rw [collapseGo_true_ws_cons c cs hw] at h
        intro x hx
        rcases List.mem_cons.mp hx with rfl | hx
        · exact hw
        · exact ih h x hx

theorem collapseGo_false_head? (l : List Char) (c : Char) (hl : l.head? = some c)
    (hc : jsWhitespace c = false) : (collapseGo false l).head? = some c := by
  cases l with
  | nil => simp at hl
  | cons a as =>
      simp only [List.head?_cons, Option.some.injEq] at hl
      subst hl
      rw [collapseGo_nonws_cons false a as hc]
      rfl

theorem headIsWordChar_collapseGo_false (l : List Char) :
    headIsWordChar (collapseGo false l) = headIsWordChar l := by
  cases l with
  | nil => rfl
  | cons c cs =>
      cases hw : jsWhitespace c
      · rw [collapseGo_nonws_cons false c cs hw]
        rfl
      · rw [collapseGo_false_ws_cons c cs hw]
        simp only [headIsWordChar, List.head?_cons]
        rw [not_isWordChar_of_jsWhitespace c hw]
        decide

/-- Collapsing whitespace runs cannot introduce a standalone lowercase `i`. -/
theorem hasStandaloneLowerI_collapseGo (l : List Char) :
    (∀ g, hasStandaloneLowerI g l = false →
        hasStandaloneLowerI g (collapseGo false l) = false) ∧
    (hasStandaloneLowerI false l = false →
        hasStandaloneLowerI false (collapseGo true l) = false) := by
  induction l with
  | nil => exact ⟨fun g h => h, fun h => h⟩
  | cons c cs ih =>
      have hspace : (' ' == 'i') = false := by decide
      have hspaceword : isWordChar ' ' = false := by decide
      constructor
      · intro g h
        simp only [hasStandaloneLowerI, Bool.or_eq_false_iff] at h
        obtain ⟨h1, h2⟩ := h
        cases hw : jsWhitespace c
        · rw [collapseGo_nonws_cons false c cs hw]
          simp only [hasStandaloneLowerI, Bool.or_eq_false_iff]
          refine ⟨?_, ih.1 _ h2⟩
          rw [headIsWordChar_collapseGo_false]
          exact h1
        · rw [collapseGo_false_ws_cons c cs hw]
          simp only [hasStandaloneLowerI, Bool.or_eq_false_iff]
          refine ⟨by simp [hspace], ?_⟩
          rw [hspaceword]
          apply ih.2
          rw [not_isWordChar_of_jsWhitespace c hw] at h2
          exact h2
      · intro h
        simp only [hasStandaloneLowerI, Bool.or_eq_false_iff] at h
        obtain ⟨h1, h2⟩ := h
        cases hw : jsWhitespace c
        · rw [collapseGo_nonws_cons true c cs hw]
          simp only [hasStandaloneLowerI, Bool.or_eq_false_iff]
          refine ⟨?_, ih.1 _ h2⟩
          rw [headIsWordChar_collapseGo_false]
          exact h1
        · rw [collapseGo_true_ws_cons c cs hw]
          apply ih.2
          rw [not_isWordChar_of_jsWhitespace c hw] at h2
          exact h2

theorem noAdjacentWhitespace_cons (a : Char) (l : List Char) :
    noAdjacentWhitespace (a :: l) =
      ((match l.head? with
        | some b => !(jsWhitespace a && jsWhitespace b)
        | none => true) && noAdjacentWhitespace l) := by
  cases l <;> simp [noAdjacentWhitespace]

/-- The collapsed string has no adjacent whitespace and every whitespace
character in it is a single space. -/
theorem collapseGo_noAdj_and_space (l : List Char) :
    ∀ b, noAdjacentWhitespace (collapseGo b l) = true ∧
      (∀ c ∈ collapseGo b l, jsWhitespace c = true → c = ' ') := by
  induction l with
  | nil => intro b; exact ⟨rfl, by simp [collapseGo]⟩
  | cons c cs ih =>
      intro b
      cases hw : jsWhitespace c
      · rw [collapseGo_nonws_cons b c cs hw]
        constructor
        · rw [noAdjacentWhitespace_cons, (ih false).1]
          cases hh : (collapseGo false cs).head? <;> simp [hw]
        · intro x hx hxw
          rcases List.mem_cons.mp hx with rfl | hx
          · rw [hw] at hxw; cases hxw
          · exact (ih false).2 x hx hxw
      · cases b
        · rw [collapseGo_false_ws_cons c cs hw]
          constructor
          · rw [noAdjacentWhitespace_cons, (ih true).1]
            cases hh : (collapseGo true cs).head? with
            | none => simp
            | some d =>
                have hd := collapseGo_true_head_not_ws cs d hh
                simp [hd]
          · intro x hx hxw
            rcases List.mem_cons.mp hx with rfl | hx
            · rfl
            · exact (ih true).2 x hx hxw
        · rw [collapseGo_true_ws_cons c cs hw]
          exact ih true

theorem collapseGo_getLast_not_ws (l : List Char) :
    ∀ b, (∀ c, l.getLast? = some c → jsWhitespace c = false) →
      ∀ c, (collapseGo b l).getLast? = some c → jsWhitespace c = false := by
  induction l with
  | nil => intro b _ c hc; simp [collapseGo] at hc
  | cons a as ih =>
      intro b hl c hc
      cases hw : jsWhitespace a
      · rw [collapseGo_nonws_cons b a as hw] at hc
        by_cases has : as = []
        · subst has
          simp only [collapseGo, List.getLast?_singleton, Option.some.injEq] at hc
          rw [← hc]
          exact hw
        · have hrest : collapseGo false as ≠ [] := by
            cases as with
            | nil => exact absurd rfl has
            | cons x xs => exact collapseGo_false_ne_nil x xs
          rw [getLast_cons_ne_nil hrest] at hc
          refine ih false ?_ c hc
          intro d hd
          apply hl d
          rw [getLast_cons_ne_nil has]
          exact hd
      · have hlas : ∀ d, as.getLast? = some d → jsWhitespace d = false := by
          intro d hd
          apply hl d
          have has : as ≠ [] := by
            intro hnil
            rw [hnil] at hd
            simp at hd
          rw [getLast_cons_ne_nil has]
          exact hd
        cases b
        · rw [collapseGo_false_ws_cons a as hw] at hc
          by_cases has : as = []
          · subst has
            have := hl a (by simp)
            rw [hw] at this
            cases this
          · have hne : collapseGo true as ≠ [] := by
              intro hnil
              have hall := collapseGo_true_eq_nil as hnil
              cases hlast : as.getLast? with
              | none => exact has (List.getLast?_eq_none_iff.mp hlast)
              | some d =>
                  have hdws := hall d (mem_of_getLast?_eq hlast)
                  have := hlas d hlast
                  rw [hdws] at this
                  cases this
            rw [getLast_cons_ne_nil hne] at hc
            exact ih true hlas c hc
        · rw [collapseGo_true_ws_cons a as hw] at hc
          exact ih true hlas c hc

/-- C9: for every recognized fragment, the adapter's post-processing returns a
string with no leading or trailing whitespace, whose first character is the
uppercased first character of the trimmed input, which contains no standalone
lowercase `i`, in which whitespace never occurs twice in a row and every
whitespace character is a single plain space; and on a concrete fragment the
whole pipeline produces the expected text. -/
theorem processTranscript_normalizes :
    (∀ s : String,
      (∀ c, (processTranscript s).data.head? = some c → jsWhitespace c = false) ∧
      (∀ c, (processTranscript s).data.getLast? = some c → jsWhitespace c = false) ∧
      noAdjacentWhitespace (processTranscript s).data = true ∧
      (∀ c ∈ (processTranscript s).data, jsWhitespace c = true → c = ' ') ∧
      hasStandaloneLowerI false (processTranscript s).data = false ∧
      (processTranscript s).data.head? = (jsTrim s.data).head?.map jsToUpper) ∧
    processTranscript "  hi   i am  " = "Hi I am" := by
  constructor
  · intro s
    have tHead := jsTrim_head_not_ws s.data
    have tLast := jsTrim_getLast_not_ws s.data
    have yHead :
        (replaceStandaloneI none (capitalizeFirst (jsTrim s.data))).head? =
          (jsTrim s.data).head?.map jsToUpper := by
      cases htr : jsTrim s.data with
      | nil => rfl
      | cons a as =>
          have hcap : (capitalizeFirst (a :: as)).head? = some (jsToUpper a) := rfl
          rw [head_replaceStandaloneI_of_ne_i none (capitalizeFirst (a :: as))
            (jsToUpper a) hcap (jsToUpper_ne_lower_i a)]
          rfl
    have yHeadWs :
        ∀ c, (replaceStandaloneI none (capitalizeFirst (jsTrim s.data))).head? = some c →
          jsWhitespace c = false := by
      intro c hc
      rw [yHead] at hc
      cases htr : (jsTrim s.data).head? with
      | none => rw [htr] at hc; simp at hc
      | some a =>
          rw [htr] at hc
          simp only [Option.map_some', Option.some.injEq] at hc
          rw [← hc, jsWhitespace_jsToUpper]
          exact tHead a htr
    have yLast :
        ∀ c, (replaceStandaloneI none (capitalizeFirst (jsTrim s.data))).getLast? = some c →
          jsWhitespace c = false := by
      intro c hc
      rcases getLast_replaceStandaloneI _ none c hc with h | h
      · exact capitalizeFirst_getLast_not_ws _ tLast c h
      · rw [h]; decide
    have yStd :
        hasStandaloneLowerI false
          (replaceStandaloneI none (capitalizeFirst (jsTrim s.data))) = false := by
      have h := hasStandaloneLowerI_replaceStandaloneI (capitalizeFirst (jsTrim s.data)) none
      simpa [prevIsWordChar] using h
    have hdata : (processTranscript s).data =
        collapseGo false (replaceStandaloneI none (capitalizeFirst (jsTrim s.data))) := rfl
    rw [hdata]
    refine ⟨?_, collapseGo_getLast_not_ws _ false yLast,
      (collapseGo_noAdj_and_space _ false).1, (collapseGo_noAdj_and_space _ false).2,
      (hasStandaloneLowerI_collapseGo _).1 false yStd, ?_⟩
    · intro c hc
      cases hyh : (replaceStandaloneI none (capitalizeFirst (jsTrim s.data))).head? with
      | none =>
          rw [List.head?_eq_none_iff.mp hyh] at hc
          simp [collapseGo] at hc
      | some d =>
          have hdws := yHeadWs d hyh
          rw [collapseGo_false_head? _ d hyh hdws] at hc
          simp only [Option.some.injEq] at hc
          rw [← hc]
          exact hdws
    · rw [← yHead]
      cases hyh : (replaceStandaloneI none (capitalizeFirst (jsTrim s.data))).head? with
      | none =>
          rw [List.head?_eq_none_iff.mp hyh]
          simp [collapseGo]
      | some d =>
          exact collapseGo_false_head? _ d hyh (yHeadWs d hyh)
  · decide

theorem natToDigits_ne_nil (n : Nat) : natToDigits n ≠ [] := by
  rw [natToDigits]
  split <;> simp

theorem natToDigits_all_digits (n : Nat) :
    ∀ c ∈ natToDigits n, 48 ≤ c.toNat ∧ c.toNat ≤ 57 := by
  induction n using natToDigits.induct with
  | case1 n h =>
      rw [natToDigits, if_pos h]
      intro c hc
      simp only [List.mem_singleton] at hc
      subst hc
      rw [char_toNat_ofNat _ (by omega)]
      omega
  | case2 n h ih =>
      rw [natToDigits, if_neg h]
      intro c hc
      rcases List.mem_append.mp hc with hc | hc
      · exact ih c hc
      · simp only [List.mem_singleton] at hc
        subst hc
        rw [char_toNat_ofNat _ (by omega)]
        omega

theorem digitsVal_append_single (l : List Char) (c : Char) :
    digitsVal (l ++ [c]) = digitsVal l * 10 + (c.toNat - 48) := by
  simp [digitsVal, List.foldl_append]

theorem digitsVal_natToDigits (n : Nat) : digitsVal (natToDigits n) = n := by
  induction n using natToDigits.induct with
  | case1 n h =>
      rw [natToDigits, if_pos h]
      simp only [digitsVal, List.foldl_cons, List.foldl_nil]
      rw [char_toNat_ofNat _ (by omega)]
      omega
  | case2 n h ih =>
      rw [natToDigits, if_neg h]
      rw [digitsVal_append_single, ih, char_toNat_ofNat _ (by omega)]
      omega

/-- The modeled date codec is lossless, as `new Date` on a
`Date.toJSON`-produced timestamp is. -/
theorem dateDecode_dateEncode (ms : Nat) : dateDecode (dateEncode ms) = some ms := by
  have hdata : (dateEncode ms).data = natToDigits ms := rfl
  have h1 : (natToDigits ms).isEmpty = false := by
    cases hn : natToDigits ms with
    | nil => exact absurd hn (natToDigits_ne_nil ms)
    | cons a l => rfl
  have h2 : ((natToDigits ms).all fun c => decide (48 ≤ c.toNat ∧ c.toNat ≤ 57)) = true := by
    rw [List.all_eq_true]
    intro c hc
    exact decide_eq_true (natToDigits_all_digits ms c hc)
  unfold dateDecode
  rw [hdata, h1, h2]
  simp [digitsVal_natToDigits]

/-- C10: `isStorageNearLimit` returns true exactly when the aggregate stored
session size in bytes strictly exceeds 90% of the 5 MB budget, i.e.
`getStorageSize > 4718592`; at or below that threshold it is accordingly
false. -/
theorem storage_near_limit_iff (st : StorageState) :
    isStorageNearLimit st = true ↔ getStorageSize st > 9 * (5 * 1024 * 1024) / 10 := by
  simp only [isStorageNearLimit, decide_eq_true_eq]
  omega

/-- C10 (witness): the characterization applied to the empty store. -/
theorem storage_near_limit_iff_witness :
    isStorageNearLimit { mainList := [], individual := [] } = true ↔
      getStorageSize { mainList := [], individual := [] } > 9 * (5 * 1024 * 1024) / 10 :=
  storage_near_limit_iff { mainList := [], individual := [] }

/-- C4 (counterexample): importing the payload `[0]` — an array whose only
element is not a session-shaped record — into the empty store reports success
and commits the element, contradicting the claim that any payload with a
non-session-shaped element is rejected with nothing committed. -/
theorem importSessions_commits_unvalidated_records :
    (importSessions (some (.arr [.num 0])) { mainList := [], individual := [] }).1 = true ∧
    (importSessions (some (.arr [.num 0]))
        { mainList := [], individual := [] }).2.mainList = [.num 0] ∧
    isSessionShaped (.num 0) = false := by
  refine ⟨rfl, rfl, rfl⟩

/-- C4 (amended): `importSessions` validates only that the payload is an
array.  An unparseable or non-array payload commits nothing (the store is
unchanged) and returns failure; every array payload — even one whose elements
are not session-shaped records — is committed element-by-element via
`saveSession` and reported as success. -/
theorem importSessions_array_check_only (payload : Option Json) (st : StorageState) :
    ((∀ xs, payload ≠ some (.arr xs)) → importSessions payload st = (false, st)) ∧
    (∀ xs, payload = some (.arr xs) → (importSessions payload st).1 = true) := by
  constructor
  · intro h
    match payload with
    | none => rfl
    | some .null => rfl
    | some (.bool b) => rfl
    | some (.num n) => rfl
    | some (.str s) => rfl
    | some (.arr xs) => exact absurd rfl (h xs)
    | some (.obj fs) => rfl
  · intro xs h
    subst h
    rfl

/-- C4 (witness): a non-array payload leaves the empty store unchanged and
reports failure. -/
theorem importSessions_array_check_only_witness :
    importSessions (some .null) { mainList := [], individual := [] } =
      (false, { mainList := [], individual := [] }) :=
  (importSessions_array_check_only (some .null)
      { mainList := [], individual := [] }).1
    (fun _xs h => Json.noConfusion (Option.some.inj h))

/-- Revival and re-serialization leave a `JSON.stringify`-produced transcript
entry unchanged. -/
theorem reviveEntry_entryToJson (e : TranscriptEntry) :
    reviveEntry (entryToJson e) = some (entryToJson e) := by
  obtain ⟨txt, tsp, stt, ett, conf, fin, spk⟩ := e
  cases conf <;> cases spk <;>
    simp [entryToJson, reviveEntry, setField, reviveDateField, dateDecode_dateEncode,
      List.lookup]

theorem mapJson_reviveEntry_map (ts : List TranscriptEntry) :
    mapJson reviveEntry (ts.map entryToJson) = some (ts.map entryToJson) := by
  induction ts with
  | nil => rfl
  | cons t ts ih => simp [mapJson, reviveEntry_entryToJson, ih]

/-- Revival and re-serialization leave a `JSON.stringify`-produced session
unchanged. -/
theorem reviveSession_sessionToJson (s : CaptionSession) :
    reviveSession (sessionToJson s) = some (sessionToJson s) := by
  simp [sessionToJson, reviveSession, mapJson_reviveEntry_map, setField,
    reviveDateField, dateDecode_dateEncode, List.lookup]

theorem getAllSessions_map (sessions : List CaptionSession)
    (ind : List (String × String)) :
    getAllSessions { mainList := sessions.map sessionToJson, individual := ind } =
      sessions.map sessionToJson := by
  have h : mapJson reviveSession (sessions.map sessionToJson) =
      some (sessions.map sessionToJson) := by
    induction sessions with
    | nil => rfl
    | cons s ss ih => simp [mapJson, reviveSession_sessionToJson, ih]
  simp [getAllSessions, h]

theorem jsUpsert_cons (pred : Json → Bool) (v x : Json) (xs : List Json) :
    jsUpsert pred v (x :: xs) =
      if pred x then v :: xs else x :: jsUpsert pred v xs := by
  simp only [jsUpsert, List.findIdx?_cons]
  cases hp : pred x
  · simp only [Bool.false_eq_true, if_neg, List.findIdx?_succ]
    cases h : List.findIdx? pred xs with
    | none => simp
    | some i => simp [List.set_cons_succ]
  · simp

theorem save_pred_eval (t s : CaptionSession) :
    jsStrictEq (getField (sessionToJson t) "id") (getField (sessionToJson s) "id") =
      (t.id == s.id) := by
  simp [sessionToJson, getField, List.lookup, jsStrictEq]

theorem jsUpsert_map_toJson (s : CaptionSession) :
    ∀ (sessions : List CaptionSession), s ∈ sessions →
      (sessions.map CaptionSession.id).Nodup →
      jsUpsert (fun x => jsStrictEq (getField x "id") (getField (sessionToJson s) "id"))
          (sessionToJson s) (sessions.map sessionToJson) =
        sessions.map sessionToJson := by
  intro sessions
  induction sessions with
  | nil => intro h; cases h
  | cons t ts ih =>
      intro hmem hnodup
      rw [List.map_cons, jsUpsert_cons]
      by_cases hid : t.id = s.id
      · rw [if_pos (by rw [save_pred_eval]; simp [hid])]
        have hst : s = t := by
          rcases List.mem_cons.mp hmem with rfl | hmem'
          · rfl
          · exfalso
            have hin : s.id ∈ ts.map CaptionSession.id := List.mem_map_of_mem _ hmem'
            have hnd := (List.nodup_cons.mp hnodup).1
            rw [hid] at hnd
            exact hnd hin
        rw [hst]
      · rw [if_neg (by rw [save_pred_eval]; simp [hid])]
        congr 1
        apply ih
        · rcases List.mem_cons.mp hmem with rfl | hmem'
          · exact absurd rfl hid
          · exact hmem'
        · exact (List.nodup_cons.mp hnodup).2

/-- Saving a session already present (by id, under the store's id-uniqueness
invariant) leaves the stored aggregate list unchanged. -/
theorem saveSession_mainList (s : CaptionSession) (sessions : List CaptionSession)
    (ind : List (String × String)) (hmem : s ∈ sessions)
    (hnodup : (sessions.map CaptionSession.id).Nodup) :
    (saveSession (sessionToJson s)
        { mainList := sessions.map sessionToJson, individual := ind }).mainList =
      sessions.map sessionToJson := by
  simp only [saveSession, getAllSessions_map]
  exact jsUpsert_map_toJson s sessions hmem hnodup

theorem foldl_saveSession_mainList (sessions : List CaptionSession)
    (hnodup : (sessions.map CaptionSession.id).Nodup) :
    ∀ (elems : List Json), (∀ x ∈ elems, ∃ s ∈ sessions, x = sessionToJson s) →
      ∀ (st : StorageState), st.mainList = sessions.map sessionToJson →
        (elems.foldl (fun acc x => saveSession x acc) st).mainList =
          sessions.map sessionToJson := by
  intro elems
  induction elems with
  | nil => intro _ st hst; simpa using hst
  | cons x xs ih =>
      intro hmem st hst
      rcases st with ⟨ml, iv⟩
      simp only at hst
      subst hst
      simp only [List.foldl_cons]
      obtain ⟨s, hs, hx⟩ := hmem x (List.mem_cons_self ..)
      subst hx
      apply ih (fun y hy => hmem y (List.mem_cons_of_mem _ hy))
      exact saveSession_mainList s sessions iv hs hnodup

/-- C5: for every stored set of sessions (under the store's id-uniqueness
invariant), importing the output of the export succeeds and restores an
identical stored session set — hence the same session ids, the same content
and the same per-session transcript entry counts as before the round trip. -/
theorem export_import_round_trip (sessions : List CaptionSession)
    (ind : List (String × String))
    (hnodup : (sessions.map CaptionSession.id).Nodup) :
    (importSessions
        (some (exportSessions
          { mainList := sessions.map sessionToJson, individual := ind }))
        { mainList := sessions.map sessionToJson, individual := ind }).1 = true ∧
    (importSessions
        (some (exportSessions
          { mainList := sessions.map sessionToJson, individual := ind }))
        { mainList := sessions.map sessionToJson, individual := ind }).2.mainList =
      sessions.map sessionToJson ∧
    getAllSessions (importSessions
        (some (exportSessions
          { mainList := sessions.map sessionToJson, individual := ind }))
        { mainList := sessions.map sessionToJson, individual := ind }).2 =
      getAllSessions { mainList := sessions.map sessionToJson, individual := ind } := by
  have hexp : exportSessions
      { mainList := sessions.map sessionToJson, individual := ind } =
      .arr (sessions.map sessionToJson) := by
    simp [exportSessions, getAllSessions_map]
  rw [hexp]
  have hfold : ((sessions.map sessionToJson).foldl (fun acc x => saveSession x acc)
      { mainList := sessions.map sessionToJson, individual := ind }).mainList =
      sessions.map sessionToJson :=
    foldl_saveSession_mainList sessions hnodup _
      (fun x hx => by
        obtain ⟨s, hs, hxx⟩ := List.mem_map.mp hx
        exact ⟨s, hs, hxx.symm⟩)
      _ rfl
  refine ⟨rfl, hfold, ?_⟩
  have hml : ∀ st₁ st₂ : StorageState, st₁.mainList = st₂.mainList →
      getAllSessions st₁ = getAllSessions st₂ := by
    intro st₁ st₂ h
    simp [getAllSessions, h]
  apply hml
  have h2 : (importSessions (some (Json.arr (sessions.map sessionToJson)))
      { mainList := sessions.map sessionToJson, individual := ind }).2.mainList =
      sessions.map sessionToJson := hfold
  rw [h2]

/-- C5 (witness): the round trip applied to a concrete store holding one
session with one final entry. -/
theorem export_import_round_trip_witness :
    (importSessions
        (some (exportSessions
          { mainList :=
              [{ id := "session_1", name := "Meeting", startTime := 0, endTime := 9,
                 transcript :=
                   [{ text := "Hello.", timestamp := 9, startTime := 0, endTime := 9,
                      confidence := some 1, isFinal := true,
                      speaker := some "User" }],
                 language := "en" : CaptionSession }].map sessionToJson,
            individual := [] }))
        { mainList :=
            [{ id := "session_1", name := "Meeting", startTime := 0, endTime := 9,
               transcript :=
                 [{ text := "Hello.", timestamp := 9, startTime := 0, endTime := 9,
                    confidence := some 1, isFinal := true,
                    speaker := some "User" }],
               language := "en" : CaptionSession }].map sessionToJson,
          individual := [] }).1 = true ∧
    (importSessions
        (some (exportSessions
          { mainList :=
              [{ id := "session_1", name := "Meeting", startTime := 0, endTime := 9,
                 transcript :=
                   [{ text := "Hello.", timestamp := 9, startTime := 0, endTime := 9,
                      confidence := some 1, isFinal := true,
                      speaker := some "User" }],
                 language := "en" : CaptionSession }].map sessionToJson,
            individual := [] }))
        { mainList :=
            [{ id := "session_1", name := "Meeting", startTime := 0, endTime := 9,
               transcript :=
                 [{ text := "Hello.", timestamp := 9, startTime := 0, endTime := 9,
                    confidence := some 1, isFinal := true,
                    speaker := some "User" }],
               language := "en" : CaptionSession }].map sessionToJson,
          individual := [] }).2.mainList =
      [{ id := "session_1", name := "Meeting", startTime := 0, endTime := 9,
         transcript :=
           [{ text := "Hello.", timestamp := 9, startTime := 0, endTime := 9,
              confidence := some 1, isFinal := true,
              speaker := some "User" }],
         language := "en" : CaptionSession }].map sessionToJson := by
  have h := export_import_round_trip
    [{ id := "session_1", name := "Meeting", startTime := 0, endTime := 9,
       transcript :=
         [{ text := "Hello.", timestamp := 9, startTime := 0, endTime := 9,
            confidence := some 1, isFinal := true, speaker := some "User" }],
       language := "en" : CaptionSession }] [] (by simp)
  exact ⟨h.1, h.2.1⟩
